import Mathlib

/-!
Shallow embedding of `PrefixSumComputer` (src/unnamed/part_001) from the
`monaco-editor-core` source fragment, together with proofs about it.

Modelling conventions:
* A JS `Uint32Array` is modelled as `List Nat` whose entries are `< 2^32`.
  Storing into a `Uint32Array` cell reduces the stored number modulo `2^32`
  (JS `ToUint32`); an out-of-bounds store is a no-op (matched by `List.set`,
  which ignores out-of-range indices); an out-of-bounds read yields
  `undefined`, modelled by `Option` (`List.get?`) at the points where the
  source can actually perform such a read.
* The single cell of the `Int32Array` holding `prefixSumValidIndex` is
  modelled as a plain `Int` (its reachable values all lie in `[-1, 2^31)`,
  far from the `Int32` wrap boundary).
* JS index/weight arguments are `Int` (the embedding considers integral JS
  numbers; fractional inputs are outside the model).
* Methods that mutate the object are state-passing functions
  `PrefixSumComputer → args → PrefixSumComputer × result`.
-/

set_option autoImplicit false

namespace PrefixSumSpec

/-- `2^32`, the modulus of JS `Uint32Array` cells. -/
def U32 : Nat := 4294967296

/-- Modelled from the spec: `toUint32` from `vs/base/common/uint` is imported
by the source file but is not part of the provided sources.  The spec says
weight and index values "are coerced into the unsigned 32-bit range on input",
so the model clamps: negative values to `0`, values above `2^32 - 1` to
`2^32 - 1`. -/
def toUint32 (v : Int) : Nat :=
  if v < 0 then 0 else min v.toNat (U32 - 1)

/-- Result record of `getIndexOf` (class `PrefixSumIndexOfResult`). -/
structure PrefixSumIndexOfResult where
  index : Nat
  remainder : Int
deriving DecidableEq, Repr

/-- State of a `PrefixSumComputer` object: the weight array `values`, the
cached inclusive prefix sums `prefixSum`, and the watermark
`prefixSumValidIndex` (the JS field is `Int32Array(1)`; we model its single
cell). -/
structure PrefixSumComputer where
  values : List Nat
  prefixSum : List Nat
  prefixSumValidIndex : Int
deriving DecidableEq, Repr

namespace PrefixSumComputer

/-- The constructor: keeps `values`, allocates a zero-filled cache of the same
length (`new Uint32Array(values.length)`), watermark `-1`. -/
def create (values : List Nat) : PrefixSumComputer :=
  { values := values
    prefixSum := List.replicate values.length 0
    prefixSumValidIndex := -1 }

/-- The still-valid prefix of the old cache that both `insertValues` and
`removeValues` copy into the fresh cache: `oldPrefixSum.subarray(0, w + 1)`
when the (already lowered) watermark `w` is `≥ 0`, nothing otherwise. -/
def keptCache (oldPrefixSum : List Nat) (w : Int) : List Nat :=
  if 0 ≤ w then oldPrefixSum.take (w.toNat + 1) else []

/-- The cache rebuilt by `insertValues`/`removeValues`: a zero-filled
`new Uint32Array(n)` with `keptCache` copied in at offset 0. -/
def rebuiltCache (oldPrefixSum : List Nat) (w : Int) (n : Nat) : List Nat :=
  keptCache oldPrefixSum w
    ++ List.replicate (n - (keptCache oldPrefixSum w).length) 0

/-- `insertValues(insertIndex, insertValues)`.  The three `set`/`subarray`
copies amount to splicing `ins` into `values` at `insertIndex`
(`take`/`drop`); the new cache keeps the still-valid prefix (indices
`≤ min(old watermark, insertIndex - 1)`) of the old cache, the rest is the
zero fill of the fresh `Uint32Array`.  Faithful for `insertIndex ≤ N` (for
larger `insertIndex` the JS `set` calls throw a `RangeError`; the spec calls
that case undefined behaviour). -/
def insertValues (s : PrefixSumComputer) (insertIndex : Int) (ins : List Nat) :
    PrefixSumComputer × Bool :=
  let idx := toUint32 insertIndex
  if ins.length = 0 then (s, false)
  else
    let newValues := s.values.take idx ++ ins ++ s.values.drop idx
    let w := min s.prefixSumValidIndex ((idx : Int) - 1)
    ({ values := newValues
       prefixSum := rebuiltCache s.prefixSum w newValues.length
       prefixSumValidIndex := w }, true)

/-- `changeValue(index, value)`.  The JS comparison `this.values[index] === value`
is `false` when `index` is out of bounds (the read yields `undefined`); in
that case the subsequent store is an ignored out-of-bounds write, which
`List.set` reproduces.  The watermark is lowered to
`min(old watermark, index - 1)` (the JS guard `index - 1 < w`). -/
def changeValue (s : PrefixSumComputer) (index value : Int) :
    PrefixSumComputer × Bool :=
  let idx := toUint32 index
  let v := toUint32 value
  if s.values.get? idx = some v then (s, false)
  else
    ({ s with values := s.values.set idx v
              prefixSumValidIndex := min s.prefixSumValidIndex ((idx : Int) - 1) },
     true)

/-- `removeValues(startIndex, cnt)`: clamp `cnt` to `N - startIndex`, bail out
returning `false` when nothing is removed, otherwise splice out
`[startIndex, startIndex + cnt)` and rebuild the cache keeping the prefix
valid below `startIndex`. -/
def removeValues (s : PrefixSumComputer) (startIndex cnt : Int) :
    PrefixSumComputer × Bool :=
  let start := toUint32 startIndex
  let c0 := toUint32 cnt
  if s.values.length ≤ start then (s, false)
  else
    let maxCnt := s.values.length - start
    let c := if maxCnt ≤ c0 then maxCnt else c0
    if c = 0 then (s, false)
    else
      let newValues := s.values.take start ++ s.values.drop (start + c)
      let w := min s.prefixSumValidIndex ((start : Int) - 1)
      ({ values := newValues
         prefixSum := rebuiltCache s.prefixSum w newValues.length
         prefixSumValidIndex := w }, true)

/-- The fill-forward loop of `_getAccumulatedValue`:
`for (let i = startIndex; i <= index; i++) prefixSum[i] = prefixSum[i-1] + values[i]`.
The store into the `Uint32Array` cell reduces modulo `2^32`.  The `i = 0` and
`i < 0` branches mirror JS typed-array semantics for the (unreachable in
well-formed states) case `startIndex ≤ 0`: at `i = 0` the read
`prefixSum[-1]` is `undefined`, the sum is `NaN` and `ToUint32(NaN) = 0` is
stored; at `i < 0` the write itself is ignored. -/
def fillLoopGo (values : List Nat) : Nat → List Nat → Int → Int → List Nat
  | 0, ps, _, _ => ps
  | fuel + 1, ps, i, stop =>
    if i ≤ stop then
      fillLoopGo values fuel
        (if 1 ≤ i then
          ps.set i.toNat ((ps.getD (i.toNat - 1) 0 + values.getD i.toNat 0) % U32)
        else if i = 0 then ps.set 0 0
        else ps)
        (i + 1) stop
    else ps

/-- The loop itself: the fuel `(stop + 1 - i).toNat` is exactly the number of
iterations `for (let i = startIndex; i <= index; i++)` performs, so
`fillLoopGo` never exhausts it early (see `fillLoop_eq`). -/
def fillLoop (values ps : List Nat) (i stop : Int) : List Nat :=
  fillLoopGo values (stop + 1 - i).toNat ps i stop

lemma fillLoop_eq (values ps : List Nat) (i stop : Int) :
    fillLoop values ps i stop =
      if i ≤ stop then
        fillLoop values
          (if 1 ≤ i then
            ps.set i.toNat ((ps.getD (i.toNat - 1) 0 + values.getD i.toNat 0) % U32)
          else if i = 0 then ps.set 0 0
          else ps)
          (i + 1) stop
      else ps := by
  unfold fillLoop
  by_cases h : i ≤ stop
  · obtain ⟨n, hn⟩ : ∃ n, (stop + 1 - i).toNat = n + 1 :=
      ⟨(stop + 1 - i).toNat - 1, by omega⟩
    rw [hn, if_pos h]
    simp only [fillLoopGo]
    rw [if_pos h]
    have : (stop + 1 - (i + 1)).toNat = n := by omega
    rw [this]
  · have h0 : (stop + 1 - i).toNat = 0 := by omega
    rw [h0, if_neg h]
    rfl

/-- `_getAccumulatedValue(index)` (private).  Called with `index ≥ 0` (both
call sites coerce), hence `index : Nat`.  If the cache already covers `index`
it answers from the cache; otherwise it seeds `prefixSum[0] = values[0]` when
the watermark is `-1`, clamps `index` to `N - 1` (for `N = 0` this clamp makes
`index = -1`), runs the fill loop, raises the watermark and answers
`prefixSum[index]` — which is the `undefined` read `prefixSum[-1]`, i.e.
`none`, when the array is empty. -/
def getAccumulatedValueAux (s : PrefixSumComputer) (index : Nat) :
    PrefixSumComputer × Option Nat :=
  if (index : Int) ≤ s.prefixSumValidIndex then (s, s.prefixSum.get? index)
  else
    let w := s.prefixSumValidIndex
    let ps0 := if w + 1 = 0 then s.prefixSum.set 0 (s.values.getD 0 0) else s.prefixSum
    let start : Int := if w + 1 = 0 then 1 else w + 1
    let index' : Int :=
      if (s.values.length : Int) ≤ (index : Int) then (s.values.length : Int) - 1
      else (index : Int)
    let ps1 := fillLoop s.values ps0 start index'
    ({ s with prefixSum := ps1, prefixSumValidIndex := max w index' },
     if 0 ≤ index' then ps1.get? index'.toNat else none)

/-- `getAccumulatedValue(index)`: negative indices answer `0`, others are
coerced to uint32 and forwarded. -/
def getAccumulatedValue (s : PrefixSumComputer) (index : Int) :
    PrefixSumComputer × Option Nat :=
  if index < 0 then (s, some 0)
  else s.getAccumulatedValueAux (toUint32 index)

/-- `getTotalValue()`: `0` on the empty sequence, otherwise the accumulated
value through the last index. -/
def getTotalValue (s : PrefixSumComputer) : PrefixSumComputer × Option Nat :=
  if s.values.length = 0 then (s, some 0)
  else s.getAccumulatedValueAux (s.values.length - 1)

/-- The binary-search loop of `getIndexOf`.  `low`, `mid` stay non-negative;
`high` can reach `-1`.  `mid` and `midStart` persist across iterations and are
returned by the `break` / loop-exit paths, so they are threaded as
parameters (initially `0` and `0`). -/
def indexOfLoopGo (values ps : List Nat) (acc : Int) :
    Nat → Nat → Int → Nat → Int → Nat × Int
  | 0, _, _, mid, midStart => (mid, midStart)
  | fuel + 1, low, high, mid, midStart =>
    if (low : Int) ≤ high then
      if acc < (ps.getD (low + (high.toNat - low) / 2) 0 : Int)
          - (values.getD (low + (high.toNat - low) / 2) 0 : Int) then
        indexOfLoopGo values ps acc fuel low
          ((low + (high.toNat - low) / 2 : Nat) - 1)
          (low + (high.toNat - low) / 2)
          ((ps.getD (low + (high.toNat - low) / 2) 0 : Int)
            - (values.getD (low + (high.toNat - low) / 2) 0 : Int))
      else if (ps.getD (low + (high.toNat - low) / 2) 0 : Int) ≤ acc then
        indexOfLoopGo values ps acc fuel (low + (high.toNat - low) / 2 + 1) high
          (low + (high.toNat - low) / 2)
          ((ps.getD (low + (high.toNat - low) / 2) 0 : Int)
            - (values.getD (low + (high.toNat - low) / 2) 0 : Int))
      else
        (low + (high.toNat - low) / 2,
         (ps.getD (low + (high.toNat - low) / 2) 0 : Int)
           - (values.getD (low + (high.toNat - low) / 2) 0 : Int))
    else (mid, midStart)

/-- The loop itself: the fuel `(high + 1 - low).toNat` bounds the number of
`while (low <= high)` iterations (the window shrinks every round), so
`indexOfLoopGo` never exhausts it early (see `indexOfLoop_eq`). -/
def indexOfLoop (values ps : List Nat) (acc : Int) (low : Nat) (high : Int)
    (mid : Nat) (midStart : Int) : Nat × Int :=
  indexOfLoopGo values ps acc (high + 1 - low).toNat low high mid midStart

lemma indexOfLoopGo_of_gt (values ps : List Nat) (acc : Int) (fuel : Nat)
    (low : Nat) (high : Int) (mid : Nat) (ms : Int) (h : ¬ (low : Int) ≤ high) :
    indexOfLoopGo values ps acc fuel low high mid ms = (mid, ms) := by
  cases fuel with
  | zero => rfl
  | succ n =>
    simp only [indexOfLoopGo]
    rw [if_neg h]

lemma indexOfLoopGo_fuel (values ps : List Nat) (acc : Int) :
    ∀ (n1 n2 : Nat) (low : Nat) (high : Int) (mid : Nat) (ms : Int),
      (high + 1 - low).toNat ≤ n1 → (high + 1 - low).toNat ≤ n2 →
      indexOfLoopGo values ps acc n1 low high mid ms
        = indexOfLoopGo values ps acc n2 low high mid ms := by
  intro n1
  induction n1 with
  | zero =>
    intro n2 low high mid ms h1 h2
    have hgt : ¬ (low : Int) ≤ high := by omega
    rw [indexOfLoopGo_of_gt _ _ _ _ _ _ _ _ hgt, indexOfLoopGo_of_gt _ _ _ _ _ _ _ _ hgt]
  | succ n1 ih =>
    intro n2 low high mid ms h1 h2
    by_cases hlh : (low : Int) ≤ high
    · obtain ⟨m2, hm2⟩ : ∃ m2, n2 = m2 + 1 := ⟨n2 - 1, by omega⟩
      subst hm2
      have hd : (high.toNat - low) / 2 ≤ high.toNat - low := Nat.div_le_self _ _
      simp only [indexOfLoopGo]
      rw [if_pos hlh, if_pos hlh]
      split
      · exact ih m2 _ _ _ _ (by omega) (by omega)
      · split
        · exact ih m2 _ _ _ _ (by omega) (by omega)
        · rfl
    · rw [indexOfLoopGo_of_gt _ _ _ _ _ _ _ _ hlh, indexOfLoopGo_of_gt _ _ _ _ _ _ _ _ hlh]

lemma indexOfLoop_eq (values ps : List Nat) (acc : Int) (low : Nat) (high : Int)
    (mid : Nat) (midStart : Int) :
    indexOfLoop values ps acc low high mid midStart =
      if (low : Int) ≤ high then
        if acc < (ps.getD (low + (high.toNat - low) / 2) 0 : Int)
            - (values.getD (low + (high.toNat - low) / 2) 0 : Int) then
          indexOfLoop values ps acc low ((low + (high.toNat - low) / 2 : Nat) - 1)
            (low + (high.toNat - low) / 2)
            ((ps.getD (low + (high.toNat - low) / 2) 0 : Int)
              - (values.getD (low + (high.toNat - low) / 2) 0 : Int))
        else if (ps.getD (low + (high.toNat - low) / 2) 0 : Int) ≤ acc then
          indexOfLoop values ps acc (low + (high.toNat - low) / 2 + 1) high
            (low + (high.toNat - low) / 2)
            ((ps.getD (low + (high.toNat - low) / 2) 0 : Int)
              - (values.getD (low + (high.toNat - low) / 2) 0 : Int))
        else
          (low + (high.toNat - low) / 2,
           (ps.getD (low + (high.toNat - low) / 2) 0 : Int)
             - (values.getD (low + (high.toNat - low) / 2) 0 : Int))
      else (mid, midStart) := by
  unfold indexOfLoop
  by_cases hlh : (low : Int) ≤ high
  · obtain ⟨n, hn⟩ : ∃ n, (high + 1 - low).toNat = n + 1 :=
      ⟨(high + 1 - low).toNat - 1, by omega⟩
    rw [hn, if_pos hlh]
    simp only [indexOfLoopGo]
    rw [if_pos hlh]
    have hd : (high.toNat - low) / 2 ≤ high.toNat - low := Nat.div_le_self _ _
    split
    · exact indexOfLoopGo_fuel _ _ _ _ _ _ _ _ _ (by omega) (by omega)
    · split
      · exact indexOfLoopGo_fuel _ _ _ _ _ _ _ _ _ (by omega) (by omega)
      · rfl
  · have h0 : (high + 1 - low).toNat = 0 := by omega
    rw [h0, if_neg hlh]
    rfl

/-- `getIndexOf(accumulatedValue)`: force a full recompute via
`getTotalValue()`, then binary search.  `Math.floor` is the identity on the
integral inputs of the model. -/
def getIndexOf (s : PrefixSumComputer) (accumulatedValue : Int) :
    PrefixSumComputer × PrefixSumIndexOfResult :=
  let s1 := (s.getTotalValue).1
  let r := indexOfLoop s1.values s1.prefixSum accumulatedValue 0
      ((s1.values.length : Int) - 1) 0 0
  (s1, ⟨r.1, accumulatedValue - r.2⟩)

end PrefixSumComputer

/-- `sumFirst values n` is the exact mathematical sum of the first `n`
weights (out-of-range entries contribute `0`), i.e. the exclusive prefix sum
before index `n`; `sumFirst values (i+1)` is the inclusive sum through `i`. -/
def sumFirst (values : List Nat) : Nat → Nat
  | 0 => 0
  | n + 1 => sumFirst values n + values.getD n 0

/-- The state invariant of `PrefixSumComputer` that the code actually
maintains: cache and weights have equal length, the watermark lies in
`[-1, N-1]`, every weight fits a uint32 cell, and every cache entry at or
below the watermark holds the true inclusive prefix sum reduced modulo
`2^32`. -/
def WF (s : PrefixSumComputer) : Prop :=
  s.prefixSum.length = s.values.length ∧
  -1 ≤ s.prefixSumValidIndex ∧
  s.prefixSumValidIndex ≤ (s.values.length : Int) - 1 ∧
  (∀ v ∈ s.values, v < U32) ∧
  (∀ k : Nat, (k : Int) ≤ s.prefixSumValidIndex →
    s.prefixSum.getD k 0 = sumFirst s.values (k + 1) % U32)

open PrefixSumComputer

/-! ### Helper lemmas about `List.getD` -/

lemma getD_set_self {l : List Nat} {i : Nat} (x : Nat) (h : i < l.length) :
    (l.set i x).getD i 0 = x := by
  rw [List.getD_eq_getElem _ _ (by simpa using h)]
  simp [List.getElem_set]

lemma getD_set_ne {l : List Nat} {i k : Nat} (x : Nat) (h : i ≠ k) :
    (l.set i x).getD k 0 = l.getD k 0 := by
  rw [List.getD_eq_getElem?_getD, List.getD_eq_getElem?_getD,
    List.getElem?_set_ne h]

lemma getD_take {l : List Nat} {n k : Nat} (h : k < n) :
    (l.take n).getD k 0 = l.getD k 0 := by
  rw [List.getD_eq_getElem?_getD, List.getD_eq_getElem?_getD,
    List.getElem?_take, if_pos h]

/-! ### Lemmas about `sumFirst` -/

lemma sumFirst_succ (values : List Nat) (n : Nat) :
    sumFirst values (n + 1) = sumFirst values n + values.getD n 0 := rfl

lemma sumFirst_mono (values : List Nat) {a b : Nat} (h : a ≤ b) :
    sumFirst values a ≤ sumFirst values b := by
  obtain ⟨c, rfl⟩ := Nat.exists_eq_add_of_le h
  induction c with
  | zero => exact le_rfl
  | succ c ih =>
    have : a + (c + 1) = (a + c) + 1 := rfl
    rw [this, sumFirst_succ]
    exact le_trans (ih (Nat.le_add_right a c)) (Nat.le_add_right _ _)

lemma sumFirst_congr {v1 v2 : List Nat} (n : Nat)
    (h : ∀ k, k < n → v1.getD k 0 = v2.getD k 0) :
    sumFirst v1 n = sumFirst v2 n := by
  induction n with
  | zero => rfl
  | succ n ih =>
    rw [sumFirst_succ, sumFirst_succ, ih (fun k hk => h k (by omega)),
      h n (by omega)]

/-! ### The fill-forward loop -/

lemma fillLoop_length (values : List Nat) :
    ∀ (n : Nat) (ps : List Nat) (i stop : Int), (stop + 1 - i).toNat = n →
      (fillLoop values ps i stop).length = ps.length := by
  intro n
  induction n with
  | zero =>
    intro ps i stop hn
    rw [fillLoop_eq, if_neg (by omega)]
  | succ n ih =>
    intro ps i stop hn
    rw [fillLoop_eq]
    by_cases h : i ≤ stop
    · rw [if_pos h, ih _ (i + 1) stop (by omega)]
      split
      · simp
      · split <;> simp
    · rw [if_neg h]

/-- Correctness of the fill loop: starting from a cache whose entries below
`i` hold the (mod `2^32`) inclusive prefix sums, after the loop all entries
up to `stop` do. -/
lemma fillLoop_spec (values : List Nat) (stop : Int)
    (hstop : stop < (values.length : Int)) :
    ∀ (n : Nat) (ps : List Nat) (i : Int), (stop + 1 - i).toNat = n →
      1 ≤ i → ps.length = values.length →
      (∀ k : Nat, (k : Int) < i → ps.getD k 0 = sumFirst values (k + 1) % U32) →
      ∀ k : Nat, ((k : Int) < i ∨ (k : Int) ≤ stop) →
        (fillLoop values ps i stop).getD k 0 = sumFirst values (k + 1) % U32 := by
  intro n
  induction n with
  | zero =>
    intro ps i hn h1 hlen hpre k hk
    rw [fillLoop_eq, if_neg (by omega)]
    exact hpre k (by omega)
  | succ n ih =>
    intro ps i hn h1 hlen hpre k hk
    rw [fillLoop_eq]
    by_cases h : i ≤ stop
    · rw [if_pos h, if_pos h1]
      have hiN : i.toNat < values.length := by omega
      have hips : i.toNat < ps.length := by omega
      refine ih _ (i + 1) (by omega) (by omega) (by simpa using hlen) ?_ k (by omega)
      intro j hj
      by_cases hji : (j : Int) = i
      · have hj' : j = i.toNat := by omega
        subst hj'
        rw [getD_set_self _ hips]
        have hlt : ((i.toNat - 1 : Nat) : Int) < i := by omega
        rw [hpre (i.toNat - 1) hlt]
        have : i.toNat - 1 + 1 = i.toNat := by omega
        rw [this, sumFirst_succ, Nat.mod_add_mod]
      · have hne : i.toNat ≠ j := by omega
        rw [getD_set_ne _ hne]
        exact hpre j (by omega)
    · rw [if_neg h]
      exact hpre k (by omega)

lemma fillLoop_len (values ps : List Nat) (i stop : Int) :
    (fillLoop values ps i stop).length = ps.length :=
  fillLoop_length values _ ps i stop rfl

lemma fillLoop_of_gt {values ps : List Nat} {i stop : Int} (h : ¬ i ≤ stop) :
    fillLoop values ps i stop = ps := by
  rw [fillLoop_eq, if_neg h]

lemma getD_mem {l : List Nat} {k : Nat} (h : k < l.length) : l.getD k 0 ∈ l := by
  rw [List.getD_eq_getElem _ _ h]
  exact List.getElem_mem h

lemma get?_eq_some_getD {l : List Nat} {k : Nat} (h : k < l.length) :
    l.get? k = some (l.getD k 0) := by
  rw [List.getD_eq_getElem _ _ h, List.get?_eq_getElem?, List.getElem?_eq_getElem h]

/-! ### Specification of `getAccumulatedValueAux` -/

/-- Full behavioural specification of `_getAccumulatedValue` on well-formed
states: the weights are untouched, well-formedness is preserved, the
watermark becomes `max(old watermark, min(index, N-1))`, and the answer is
the inclusive prefix sum through `min(index, N-1)` reduced modulo `2^32`
(`none`, i.e. the JS `undefined`, on the empty sequence). -/
lemma getAccumulatedValueAux_spec (s : PrefixSumComputer) (hWF : WF s) (index : Nat) :
    (s.getAccumulatedValueAux index).1.values = s.values ∧
    WF (s.getAccumulatedValueAux index).1 ∧
    (s.getAccumulatedValueAux index).1.prefixSumValidIndex
      = max s.prefixSumValidIndex (min (index : Int) ((s.values.length : Int) - 1)) ∧
    (s.getAccumulatedValueAux index).2
      = if s.values.length = 0 then none
        else some (sumFirst s.values (min index (s.values.length - 1) + 1) % U32) := by
  obtain ⟨hlen, hw1, hw2, hvb, hcache⟩ := hWF
  by_cases hb : (index : Int) ≤ s.prefixSumValidIndex
  · -- cache hit: state unchanged
    have hN : 0 < s.values.length := by omega
    have hidx : index < s.values.length := by omega
    have hidxp : index < s.prefixSum.length := by omega
    have hstate : s.getAccumulatedValueAux index = (s, s.prefixSum.get? index) := by
      unfold getAccumulatedValueAux
      rw [if_pos hb]
    rw [hstate]
    refine ⟨rfl, ⟨hlen, hw1, hw2, hvb, hcache⟩, ?_, ?_⟩
    · show s.prefixSumValidIndex = _
      omega
    rw [if_neg (by omega), get?_eq_some_getD hidxp, hcache index hb]
    have : min index (s.values.length - 1) = index := by omega
    rw [this]
  · -- cache miss: seed, fill forward, raise watermark
    by_cases hN : s.values.length = 0
    · -- empty sequence: everything is a no-op and the read is out of bounds
      have hv : s.values = [] := List.length_eq_zero.mp hN
      have hp : s.prefixSum = [] := List.length_eq_zero.mp (by omega)
      have hw : s.prefixSumValidIndex = -1 := by omega
      have hstate : s.getAccumulatedValueAux index = (s, none) := by
        obtain ⟨vals, psl, wv⟩ := s
        simp only at hv hp hw
        subst hv; subst hp; subst hw
        simp [getAccumulatedValueAux, hb, fillLoop_of_gt]
      rw [hstate]
      refine ⟨rfl, ⟨hlen, hw1, hw2, hvb, hcache⟩, ?_, by rw [if_pos hN]⟩
      show s.prefixSumValidIndex = _
      omega
    · have hN' : 0 < s.values.length := Nat.pos_of_ne_zero hN
      set w := s.prefixSumValidIndex with hwdef
      set ps0 := if w + 1 = 0 then s.prefixSum.set 0 (s.values.getD 0 0) else s.prefixSum
        with hps0
      set start : Int := if w + 1 = 0 then 1 else w + 1 with hstart
      set index' : Int :=
        if (s.values.length : Int) ≤ (index : Int) then (s.values.length : Int) - 1
        else (index : Int) with hindex'
      set ps1 := fillLoop s.values ps0 start index' with hps1
      have hstate : s.getAccumulatedValueAux index =
          ({ s with prefixSum := ps1, prefixSumValidIndex := max w index' },
           if 0 ≤ index' then ps1.get? index'.toNat else none) := by
        unfold getAccumulatedValueAux
        rw [if_neg hb]
      have hidx'1 : index' = min (index : Int) ((s.values.length : Int) - 1) := by
        rw [hindex']; omega
      have hidx'0 : 0 ≤ index' := by rw [hidx'1]; omega
      have hidx'lt : index' < (s.values.length : Int) := by rw [hidx'1]; omega
      have hps0len : ps0.length = s.values.length := by
        rw [hps0]; split <;> simp [hlen]
      have hstart1 : 1 ≤ start := by rw [hstart]; split <;> omega
      have hfill : ∀ k : Nat, ((k : Int) < start ∨ (k : Int) ≤ index') →
          ps1.getD k 0 = sumFirst s.values (k + 1) % U32 := by
        refine fillLoop_spec s.values index' hidx'lt _ ps0 start rfl hstart1 hps0len ?_
        intro k hk
        by_cases hseed : w + 1 = 0
        · -- seeded case: only k = 0 is below `start = 1`
          have hs1 : start = 1 := by rw [hstart, if_pos hseed]
          have hk0 : k = 0 := by omega
          subst hk0
          rw [hps0, if_pos hseed, getD_set_self _ (by omega)]
          have h0 : sumFirst s.values 1 = s.values.getD 0 0 := by
            simp [sumFirst]
          rw [h0, Nat.mod_eq_of_lt (hvb _ (getD_mem hN'))]
        · have hs1 : start = w + 1 := by rw [hstart, if_neg hseed]
          rw [hps0, if_neg hseed]
          exact hcache k (by omega)
      have hps1len : ps1.length = s.values.length := by
        rw [hps1, fillLoop_len, hps0len]
      rw [hstate]
      refine ⟨rfl, ⟨by simpa using hps1len, by simp only; omega, by simp only; omega,
        by simpa using hvb, ?_⟩, by simp only; omega, ?_⟩
      · intro k hk
        simp only at hk ⊢
        refine hfill k ?_
        rcases le_max_iff.mp hk with h' | h'
        · left; omega
        · right; exact h'
      · rw [if_neg hN, if_pos hidx'0]
        have hlt : index'.toNat < ps1.length := by omega
        rw [get?_eq_some_getD hlt, hfill index'.toNat (Or.inr (by omega))]
        have : index'.toNat = min index (s.values.length - 1) := by omega
        rw [this]

/-! ### toUint32 basics -/

lemma toUint32_coe {n : Nat} (h : n < U32) : toUint32 (n : Int) = n := by
  unfold toUint32 U32 at *
  rw [if_neg (by omega)]
  omega

lemma toUint32_lt (v : Int) : toUint32 v < U32 := by
  unfold toUint32 U32
  split <;> omega

/-! ### Specifications of the public queries -/

lemma getTotalValue_spec (s : PrefixSumComputer) (hWF : WF s) :
    (s.getTotalValue).1.values = s.values ∧
    WF (s.getTotalValue).1 ∧
    (s.getTotalValue).1.prefixSumValidIndex
      = max s.prefixSumValidIndex ((s.values.length : Int) - 1) ∧
    (s.getTotalValue).2
      = if s.values.length = 0 then some 0
        else some (sumFirst s.values s.values.length % U32) := by
  unfold getTotalValue
  by_cases hN : s.values.length = 0
  · obtain ⟨hlen, hw1, hw2, hvb, hcache⟩ := hWF
    rw [if_pos hN]
    refine ⟨rfl, ⟨hlen, hw1, hw2, hvb, hcache⟩, ?_, by rw [if_pos hN]⟩
    show s.prefixSumValidIndex = _
    omega
  · rw [if_neg hN]
    obtain ⟨h1, h2, h3, h4⟩ := getAccumulatedValueAux_spec s hWF (s.values.length - 1)
    refine ⟨h1, h2, ?_, ?_⟩
    · rw [h3]
      congr 1
      omega
    · rw [h4, if_neg hN, if_neg hN]
      have : min (s.values.length - 1) (s.values.length - 1) + 1 = s.values.length := by
        omega
      rw [this]

lemma getAccumulatedValue_spec (s : PrefixSumComputer) (hWF : WF s) (index : Int) :
    (s.getAccumulatedValue index).1.values = s.values ∧
    WF (s.getAccumulatedValue index).1 ∧
    (s.getAccumulatedValue index).2
      = if index < 0 then some 0
        else if s.values.length = 0 then none
        else some (sumFirst s.values
            (min (toUint32 index) (s.values.length - 1) + 1) % U32) := by
  unfold getAccumulatedValue
  by_cases hneg : index < 0
  · rw [if_pos hneg, if_pos hneg]
    exact ⟨rfl, hWF, rfl⟩
  · rw [if_neg hneg, if_neg hneg]
    obtain ⟨h1, h2, _h3, h4⟩ := getAccumulatedValueAux_spec s hWF (toUint32 index)
    exact ⟨h1, h2, h4⟩

lemma getIndexOf_WF (s : PrefixSumComputer) (hWF : WF s) (acc : Int) :
    (s.getIndexOf acc).1.values = s.values ∧ WF (s.getIndexOf acc).1 := by
  obtain ⟨h1, h2, _⟩ := getTotalValue_spec s hWF
  exact ⟨h1, h2⟩

/-! ### Well-formedness of the constructor and the mutators -/

lemma create_WF (init : List Nat) (hinit : ∀ v ∈ init, v < U32) :
    WF (create init) := by
  refine ⟨by simp [create], by simp [create], ?_, by simpa [create] using hinit, ?_⟩
  · show (-1 : Int) ≤ (init.length : Int) - 1
    omega
  · intro k hk
    exact absurd hk (by show ¬ (k : Int) ≤ -1; omega)

/-! ### Step equations for the mutators -/

lemma insertValues_nil (s : PrefixSumComputer) (insertIndex : Int) (ins : List Nat)
    (h : ins.length = 0) : s.insertValues insertIndex ins = (s, false) := by
  simp only [insertValues]
  rw [if_pos h]

lemma insertValues_pos (s : PrefixSumComputer) (insertIndex : Int) (ins : List Nat)
    (h : ¬ ins.length = 0) :
    s.insertValues insertIndex ins =
      ({ values := s.values.take (toUint32 insertIndex) ++ ins
           ++ s.values.drop (toUint32 insertIndex)
         prefixSum := rebuiltCache s.prefixSum
           (min s.prefixSumValidIndex ((toUint32 insertIndex : Int) - 1))
           (s.values.take (toUint32 insertIndex) ++ ins
             ++ s.values.drop (toUint32 insertIndex)).length
         prefixSumValidIndex :=
           min s.prefixSumValidIndex ((toUint32 insertIndex : Int) - 1) }, true) := by
  simp only [insertValues]
  rw [if_neg h]

lemma changeValue_noop (s : PrefixSumComputer) (index value : Int)
    (h : s.values.get? (toUint32 index) = some (toUint32 value)) :
    s.changeValue index value = (s, false) := by
  simp only [changeValue]
  rw [if_pos h]

lemma changeValue_store (s : PrefixSumComputer) (index value : Int)
    (h : ¬ s.values.get? (toUint32 index) = some (toUint32 value)) :
    s.changeValue index value =
      ({ values := s.values.set (toUint32 index) (toUint32 value)
         prefixSum := s.prefixSum
         prefixSumValidIndex :=
           min s.prefixSumValidIndex ((toUint32 index : Int) - 1) }, true) := by
  simp only [changeValue]
  rw [if_neg h]

lemma removeValues_oob (s : PrefixSumComputer) (startIndex cnt : Int)
    (h : s.values.length ≤ toUint32 startIndex) :
    s.removeValues startIndex cnt = (s, false) := by
  simp only [removeValues]
  rw [if_pos h]

/-- The clamped removal count of `removeValues`. -/
def clampedCnt (s : PrefixSumComputer) (startIndex cnt : Int) : Nat :=
  if s.values.length - toUint32 startIndex ≤ toUint32 cnt then
    s.values.length - toUint32 startIndex
  else toUint32 cnt

lemma removeValues_zero (s : PrefixSumComputer) (startIndex cnt : Int)
    (h : ¬ s.values.length ≤ toUint32 startIndex)
    (h0 : clampedCnt s startIndex cnt = 0) :
    s.removeValues startIndex cnt = (s, false) := by
  simp only [removeValues]
  rw [if_neg h, if_pos (by simpa [clampedCnt] using h0)]

lemma removeValues_pos (s : PrefixSumComputer) (startIndex cnt : Int)
    (h : ¬ s.values.length ≤ toUint32 startIndex)
    (h0 : ¬ clampedCnt s startIndex cnt = 0) :
    s.removeValues startIndex cnt =
      ({ values := s.values.take (toUint32 startIndex)
           ++ s.values.drop (toUint32 startIndex + clampedCnt s startIndex cnt)
         prefixSum := rebuiltCache s.prefixSum
           (min s.prefixSumValidIndex ((toUint32 startIndex : Int) - 1))
           (s.values.take (toUint32 startIndex)
             ++ s.values.drop (toUint32 startIndex + clampedCnt s startIndex cnt)).length
         prefixSumValidIndex :=
           min s.prefixSumValidIndex ((toUint32 startIndex : Int) - 1) }, true) := by
  simp only [removeValues, clampedCnt]
  rw [if_neg h, if_neg (by simpa [clampedCnt] using h0)]

/-! ### Facts about the rebuilt cache -/

lemma keptCache_length {ps : List Nat} {w : Int} (h0 : 0 ≤ w)
    (h : w.toNat + 1 ≤ ps.length) : (keptCache ps w).length = w.toNat + 1 := by
  unfold keptCache
  rw [if_pos h0]
  simp [List.length_take]
  omega

lemma rebuiltCache_length {ps : List Nat} {w : Int} {n : Nat}
    (h : 0 ≤ w → w.toNat + 1 ≤ min ps.length n) :
    (rebuiltCache ps w n).length = n := by
  unfold rebuiltCache
  rcases le_or_lt 0 w with h0 | h0
  · have := h h0
    simp only [List.length_append, List.length_replicate]
    rw [keptCache_length h0 (by omega)]
    omega
  · unfold keptCache
    rw [if_neg (by omega)]
    simp

lemma rebuiltCache_getD {ps : List Nat} {w : Int} {n k : Nat}
    (hk : (k : Int) ≤ w) (h : w.toNat + 1 ≤ ps.length) :
    (rebuiltCache ps w n).getD k 0 = ps.getD k 0 := by
  have h0 : 0 ≤ w := le_trans (by omega) hk
  unfold rebuiltCache
  rw [List.getD_append _ _ _ _ (by rw [keptCache_length h0 h]; omega)]
  unfold keptCache
  rw [if_pos h0, getD_take (by omega)]

/-! ### Well-formedness of the mutators -/

lemma insertValues_WF (s : PrefixSumComputer) (hWF : WF s) (insertIndex : Int)
    (ins : List Nat) (hins : ∀ v ∈ ins, v < U32)
    (hle : toUint32 insertIndex ≤ s.values.length) :
    WF (s.insertValues insertIndex ins).1 := by
  obtain ⟨hlen, hw1, hw2, hvb, hcache⟩ := hWF
  by_cases hemp : ins.length = 0
  · rw [insertValues_nil s insertIndex ins hemp]
    exact ⟨hlen, hw1, hw2, hvb, hcache⟩
  · rw [insertValues_pos s insertIndex ins hemp]
    set idx := toUint32 insertIndex with hidx
    set w' := min s.prefixSumValidIndex ((idx : Int) - 1) with hw'
    set newValues := s.values.take idx ++ ins ++ s.values.drop idx with hnv
    have hnvlen : newValues.length = s.values.length + ins.length := by
      rw [hnv]
      simp only [List.length_append, List.length_take, List.length_drop]
      omega
    have hwle : 0 ≤ w' → w'.toNat + 1 ≤ min s.prefixSum.length newValues.length := by
      intro h0
      rw [hnvlen]
      omega
    refine ⟨?_, by show (-1 : Int) ≤ w'; omega,
      by show w' ≤ (newValues.length : Int) - 1; omega, ?_, ?_⟩
    · show (rebuiltCache s.prefixSum w' newValues.length).length = newValues.length
      exact rebuiltCache_length hwle
    · intro v hv
      rcases List.mem_append.mp hv with hv2 | hv2
      · rcases List.mem_append.mp hv2 with hv3 | hv3
        · exact hvb v (List.mem_of_mem_take hv3)
        · exact hins v hv3
      · exact hvb v (List.mem_of_mem_drop hv2)
    · intro k hk
      replace hk : (k : Int) ≤ w' := hk
      show (rebuiltCache s.prefixSum w' newValues.length).getD k 0
        = sumFirst newValues (k + 1) % U32
      have h0 : (0 : Int) ≤ w' := le_trans (by omega) hk
      have hwle2 := hwle h0
      rw [rebuiltCache_getD hk (by omega), hcache k (by omega)]
      have hagree : sumFirst newValues (k + 1) = sumFirst s.values (k + 1) := by
        refine sumFirst_congr _ (fun j hj => ?_)
        have hjidx : j < idx := by omega
        have htklen : j < (s.values.take idx).length := by
          simp only [List.length_take]
          omega
        rw [hnv, List.append_assoc, List.getD_append _ _ _ _ htklen, getD_take hjidx]
      rw [hagree]

lemma changeValue_WF (s : PrefixSumComputer) (hWF : WF s) (index value : Int) :
    WF (s.changeValue index value).1 := by
  obtain ⟨hlen, hw1, hw2, hvb, hcache⟩ := hWF
  by_cases h : s.values.get? (toUint32 index) = some (toUint32 value)
  · rw [changeValue_noop s index value h]
    exact ⟨hlen, hw1, hw2, hvb, hcache⟩
  · rw [changeValue_store s index value h]
    set idx := toUint32 index with hidx
    set v := toUint32 value with hv
    refine ⟨by show s.prefixSum.length = (s.values.set idx v).length; simpa using hlen,
      by show (-1 : Int) ≤ min s.prefixSumValidIndex ((idx : Int) - 1); omega,
      by show min s.prefixSumValidIndex ((idx : Int) - 1)
          ≤ ((s.values.set idx v).length : Int) - 1
         simp only [List.length_set]; omega,
      ?_, ?_⟩
    · intro x hx
      rcases List.mem_or_eq_of_mem_set hx with hx2 | hx2
      · exact hvb x hx2
      · rw [hx2]
        exact toUint32_lt value
    · intro k hk
      replace hk : (k : Int) ≤ min s.prefixSumValidIndex ((idx : Int) - 1) := hk
      show s.prefixSum.getD k 0 = sumFirst (s.values.set idx v) (k + 1) % U32
      have hkw : (k : Int) ≤ s.prefixSumValidIndex := by omega
      have hkidx : (k : Int) ≤ (idx : Int) - 1 := by omega
      rw [hcache k hkw]
      have hagree : sumFirst (s.values.set idx v) (k + 1) = sumFirst s.values (k + 1) :=
        sumFirst_congr _ (fun j hj => getD_set_ne _ (by omega))
      rw [hagree]

lemma removeValues_WF (s : PrefixSumComputer) (hWF : WF s) (startIndex cnt : Int) :
    WF (s.removeValues startIndex cnt).1 := by
  obtain ⟨hlen, hw1, hw2, hvb, hcache⟩ := hWF
  by_cases hoob : s.values.length ≤ toUint32 startIndex
  · rw [removeValues_oob s startIndex cnt hoob]
    exact ⟨hlen, hw1, hw2, hvb, hcache⟩
  by_cases h0 : clampedCnt s startIndex cnt = 0
  · rw [removeValues_zero s startIndex cnt hoob h0]
    exact ⟨hlen, hw1, hw2, hvb, hcache⟩
  · rw [removeValues_pos s startIndex cnt hoob h0]
    set start := toUint32 startIndex with hstart
    set c := clampedCnt s startIndex cnt with hc
    have hcle : c ≤ s.values.length - start := by
      rw [hc]
      unfold clampedCnt
      split <;> omega
    set w' := min s.prefixSumValidIndex ((start : Int) - 1) with hw'
    set newValues := s.values.take start ++ s.values.drop (start + c) with hnv
    have hnvlen : newValues.length = s.values.length - c := by
      rw [hnv]
      simp only [List.length_append, List.length_take, List.length_drop]
      omega
    have hwle : 0 ≤ w' → w'.toNat + 1 ≤ min s.prefixSum.length newValues.length := by
      intro hge
      rw [hnvlen]
      omega
    refine ⟨?_, by show (-1 : Int) ≤ w'; omega,
      by show w' ≤ (newValues.length : Int) - 1; omega, ?_, ?_⟩
    · show (rebuiltCache s.prefixSum w' newValues.length).length = newValues.length
      exact rebuiltCache_length hwle
    · intro v hv
      rcases List.mem_append.mp hv with hv2 | hv2
      · exact hvb v (List.mem_of_mem_take hv2)
      · exact hvb v (List.mem_of_mem_drop hv2)
    · intro k hk
      replace hk : (k : Int) ≤ w' := hk
      show (rebuiltCache s.prefixSum w' newValues.length).getD k 0
        = sumFirst newValues (k + 1) % U32
      have hge : (0 : Int) ≤ w' := le_trans (by omega) hk
      have hwle2 := hwle hge
      rw [rebuiltCache_getD hk (by omega), hcache k (by omega)]
      have hagree : sumFirst newValues (k + 1) = sumFirst s.values (k + 1) := by
        refine sumFirst_congr _ (fun j hj => ?_)
        have hjst : j < start := by omega
        have htklen : j < (s.values.take start).length := by
          simp only [List.length_take]
          omega
        rw [hnv, List.getD_append _ _ _ _ htklen, getD_take hjst]
      rw [hagree]

/-! ### Correctness of the binary-search loop -/

/-- On a fully valid cache holding the exact (unwrapped) prefix sums, the
binary search maintains the invariant
`sumFirst low ≤ acc < sumFirst (high+1)` and ends by `break` at the unique
weight window containing `acc`. -/
lemma indexOfLoop_found (values ps : List Nat) (acc : Int)
    (hps : ∀ k : Nat, k < values.length → ps.getD k 0 = sumFirst values (k + 1)) :
    ∀ (n : Nat) (low : Nat) (high : Int) (mid : Nat) (ms : Int),
      (high + 1 - low).toNat ≤ n →
      (low : Int) ≤ high → high < (values.length : Int) →
      (sumFirst values low : Int) ≤ acc →
      acc < (sumFirst values (high.toNat + 1) : Int) →
      (indexOfLoop values ps acc low high mid ms).1 < values.length ∧
      (sumFirst values (indexOfLoop values ps acc low high mid ms).1 : Int) ≤ acc ∧
      acc < (sumFirst values ((indexOfLoop values ps acc low high mid ms).1 + 1) : Int) ∧
      (indexOfLoop values ps acc low high mid ms).2
        = (sumFirst values (indexOfLoop values ps acc low high mid ms).1 : Int) := by
  intro n
  induction n with
  | zero =>
    intro low high mid ms hn hlh _ _ _
    omega
  | succ n ih =>
    intro low high mid ms hn hlh hhN hlow hhigh
    have hd : (high.toNat - low) / 2 ≤ high.toNat - low := Nat.div_le_self _ _
    rw [indexOfLoop_eq, if_pos hlh]
    set m := low + (high.toNat - low) / 2 with hm
    have hmlow : low ≤ m := by omega
    have hmhigh : m ≤ high.toNat := by omega
    have hmN : m < values.length := by omega
    have hstop : (ps.getD m 0 : Int) = (sumFirst values (m + 1) : Int) := by
      rw [hps m hmN]
    have hmid : (ps.getD m 0 : Int) - (values.getD m 0 : Int)
        = (sumFirst values m : Int) := by
      rw [hps m hmN, sumFirst_succ]
      push_cast
      ring
    have hsuccm := sumFirst_succ values m
    by_cases hb1 : acc < (ps.getD m 0 : Int) - (values.getD m 0 : Int)
    · rw [if_pos hb1]
      rw [hmid] at hb1
      have hlm : low < m := by
        rcases Nat.lt_or_ge low m with h | h
        · exact h
        · exfalso
          have hmono := sumFirst_mono values h
          omega
      have htn : (((m : Int) - 1) + 1 - low).toNat ≤ n := by omega
      refine ih low ((m : Int) - 1) m _ htn (by omega) (by omega) hlow ?_
      have : ((m : Int) - 1).toNat + 1 = m := by omega
      rw [this]
      exact hb1
    · rw [if_neg hb1]
      by_cases hb2 : (ps.getD m 0 : Int) ≤ acc
      · rw [if_pos hb2]
        rw [hstop] at hb2
        have hmh : m < high.toNat := by
          rcases Nat.lt_or_ge m high.toNat with h | h
          · exact h
          · exfalso
            have hmeq : m = high.toNat := by omega
            rw [hmeq] at hb2
            omega
        refine ih (m + 1) high m _ (by omega) (by omega) hhN (by exact_mod_cast hb2) hhigh
      · rw [if_neg hb2]
        rw [hmid] at hb1
        rw [hstop] at hb2
        exact ⟨hmN, by show (sumFirst values m : Int) ≤ acc; omega,
          by show acc < (sumFirst values (m + 1) : Int); omega, hmid⟩

/-- When `acc` lies at or beyond the total sum, every probe satisfies
`midStop ≤ acc`, so the search walks `low` up to the end and exits the loop
having last visited the final index. -/
lemma indexOfLoop_ge (values ps : List Nat) (acc : Int)
    (hps : ∀ k : Nat, k < values.length → ps.getD k 0 = sumFirst values (k + 1))
    (htot : (sumFirst values values.length : Int) ≤ acc) (hN : values.length ≠ 0) :
    ∀ (n : Nat) (low : Nat) (mid : Nat) (ms : Int),
      values.length - low ≤ n →
      low ≤ values.length - 1 →
      indexOfLoop values ps acc low ((values.length : Int) - 1) mid ms
        = (values.length - 1, (sumFirst values (values.length - 1) : Int)) := by
  intro n
  induction n with
  | zero =>
    intro low mid ms hn hlo
    omega
  | succ n ih =>
    intro low mid ms hn hlo
    have hNpos : 0 < values.length := Nat.pos_of_ne_zero hN
    have hlh : (low : Int) ≤ (values.length : Int) - 1 := by omega
    have htN : ((values.length : Int) - 1).toNat = values.length - 1 := by omega
    rw [indexOfLoop_eq, if_pos hlh, htN]
    set m := low + (values.length - 1 - low) / 2 with hm
    have hd : (values.length - 1 - low) / 2 ≤ values.length - 1 - low :=
      Nat.div_le_self _ _
    have hmlow : low ≤ m := by omega
    have hmhigh : m ≤ values.length - 1 := by omega
    have hmN : m < values.length := by omega
    have hstop : (ps.getD m 0 : Int) = (sumFirst values (m + 1) : Int) := by
      rw [hps m hmN]
    have hmid : (ps.getD m 0 : Int) - (values.getD m 0 : Int)
        = (sumFirst values m : Int) := by
      rw [hps m hmN, sumFirst_succ]
      push_cast
      ring
    have hmono1 : sumFirst values m ≤ sumFirst values values.length :=
      sumFirst_mono values (by omega)
    have hmono2 : sumFirst values (m + 1) ≤ sumFirst values values.length :=
      sumFirst_mono values (by omega)
    rw [if_neg (by rw [hmid]; omega), if_pos (by rw [hstop]; omega)]
    by_cases hcase : m + 1 ≤ values.length - 1
    · exact ih (m + 1) m _ (by omega) hcase
    · have hmeq : m = values.length - 1 := by omega
      rw [indexOfLoop_eq, if_neg (by omega)]
      rw [hmid, hmeq]

/-- The weight windows `[sumFirst i, sumFirst (i+1))` are pairwise disjoint:
a position lies in at most one of them. -/
lemma window_unique (values : List Nat) {a b : Nat} (P : Int)
    (ha1 : (sumFirst values a : Int) ≤ P)
    (ha2 : P < (sumFirst values (a + 1) : Int))
    (hb1 : (sumFirst values b : Int) ≤ P)
    (hb2 : P < (sumFirst values (b + 1) : Int)) :
    a = b := by
  rcases Nat.lt_trichotomy a b with h | h | h
  · have := sumFirst_mono values (show a + 1 ≤ b by omega)
    omega
  · exact h
  · have := sumFirst_mono values (show b + 1 ≤ a by omega)
    omega

/-- Unfolding `getIndexOf` into its two phases. -/
lemma getIndexOf_eq (s : PrefixSumComputer) (acc : Int) :
    s.getIndexOf acc =
      ((s.getTotalValue).1,
        ⟨(indexOfLoop (s.getTotalValue).1.values (s.getTotalValue).1.prefixSum acc 0
            (((s.getTotalValue).1.values.length : Int) - 1) 0 0).1,
         acc - (indexOfLoop (s.getTotalValue).1.values (s.getTotalValue).1.prefixSum acc 0
            (((s.getTotalValue).1.values.length : Int) - 1) 0 0).2⟩) := by
  simp only [getIndexOf]

/-- After `getTotalValue` the whole cache is valid; when the total fits in a
uint32 the cached values are the exact prefix sums. -/
lemma getTotalValue_full (s : PrefixSumComputer) (hWF : WF s)
    (htot : sumFirst s.values s.values.length < U32) :
    ∀ k : Nat, k < s.values.length →
      (s.getTotalValue).1.prefixSum.getD k 0 = sumFirst s.values (k + 1) := by
  intro k hk
  obtain ⟨h1, h2, h3, _h4⟩ := getTotalValue_spec s hWF
  obtain ⟨_hlen2, _, _, _, hcache2⟩ := h2
  obtain ⟨_, hw1, _, _, _⟩ := hWF
  have hw : (k : Int) ≤ (s.getTotalValue).1.prefixSumValidIndex := by
    rw [h3]
    omega
  have hval := hcache2 k hw
  rw [h1] at hval
  rw [hval]
  exact Nat.mod_eq_of_lt (lt_of_le_of_lt (sumFirst_mono s.values (by omega)) htot)

/-! ### Operation traces

To speak about "every sequence of mutations interleaved with queries" we
form traces of calls to the public interface and fold them over a state. -/

/-- One call to the public interface of `PrefixSumComputer`. -/
inductive Op where
  | insert (insertIndex : Int) (ins : List Nat)
  | replace (index value : Int)
  | remove (startIndex cnt : Int)
  | sumThrough (index : Int)
  | total
  | locate (pos : Int)
deriving Repr

open PrefixSumComputer in
/-- The state after one call (queries mutate the cache, so they appear in
traces as well). -/
def applyOp (s : PrefixSumComputer) : Op → PrefixSumComputer
  | .insert a ins => (s.insertValues a ins).1
  | .replace i v => (s.changeValue i v).1
  | .remove a c => (s.removeValues a c).1
  | .sumThrough i => (s.getAccumulatedValue i).1
  | .total => (s.getTotalValue).1
  | .locate p => (s.getIndexOf p).1

/-- Arguments the source accepts on state `s`: `insertValues` must receive an
in-range index (out of range, the JS `set` calls throw a `RangeError`) and
weights representable in its `Uint32Array` argument; every other call accepts
anything. -/
def validOp (s : PrefixSumComputer) : Op → Bool
  | .insert a ins =>
      decide (toUint32 a ≤ s.values.length) && ins.all (fun v => decide (v < U32))
  | _ => true

def applyTrace (s : PrefixSumComputer) : List Op → PrefixSumComputer
  | [] => s
  | op :: ops => applyTrace (applyOp s op) ops

def validTrace (s : PrefixSumComputer) : List Op → Bool
  | [] => true
  | op :: ops => validOp s op && validTrace (applyOp s op) ops

lemma applyOp_WF (s : PrefixSumComputer) (hWF : WF s) (op : Op)
    (hv : validOp s op = true) : WF (applyOp s op) := by
  cases op with
  | insert a ins =>
    simp only [validOp, Bool.and_eq_true, decide_eq_true_eq, List.all_eq_true] at hv
    refine insertValues_WF s hWF a ins (fun v hvv => ?_) hv.1
    have := hv.2 v hvv
    simpa using this
  | replace i v => exact changeValue_WF s hWF i v
  | remove a c => exact removeValues_WF s hWF a c
  | sumThrough i => exact (getAccumulatedValue_spec s hWF i).2.1
  | total => exact (getTotalValue_spec s hWF).2.1
  | locate p => exact (getIndexOf_WF s hWF p).2

lemma applyTrace_WF (ops : List Op) : ∀ (s : PrefixSumComputer), WF s →
    validTrace s ops = true → WF (applyTrace s ops) := by
  induction ops with
  | nil =>
    intro s hWF _
    exact hWF
  | cons op ops ih =>
    intro s hWF hv
    simp only [validTrace, Bool.and_eq_true] at hv
    exact ih _ (applyOp_WF s hWF op hv.1) hv.2

/-! ### `getIndexOf` on positions inside the total -/

open PrefixSumComputer in
/-- On a well-formed, non-empty state whose total fits a uint32,
`getIndexOf P` for `0 ≤ P <` total lands in the weight window containing
`P`, and the remainder is the offset of `P` inside it. -/
lemma getIndexOf_spec_in_range (s : PrefixSumComputer) (hWF : WF s)
    (hne : s.values.length ≠ 0)
    (htot : sumFirst s.values s.values.length < U32)
    (P : Int) (h0 : 0 ≤ P) (hP : P < (sumFirst s.values s.values.length : Int)) :
    (s.getIndexOf P).2.index < s.values.length ∧
    (sumFirst s.values (s.getIndexOf P).2.index : Int) ≤ P ∧
    P < (sumFirst s.values ((s.getIndexOf P).2.index + 1) : Int) ∧
    (s.getIndexOf P).2.remainder
      = P - (sumFirst s.values (s.getIndexOf P).2.index : Int) := by
  have hfull := getTotalValue_full s hWF htot
  obtain ⟨hvals, hWF1, hwm, _⟩ := getTotalValue_spec s hWF
  have hps : ∀ k : Nat, k < s.values.length →
      (s.getTotalValue).1.prefixSum.getD k 0 = sumFirst s.values (k + 1) := hfull
  have hNpos : 0 < s.values.length := Nat.pos_of_ne_zero hne
  have htN : (((s.values.length : Int) - 1).toNat + 1) = s.values.length := by omega
  have hps' : ∀ k : Nat, k < (s.getTotalValue).1.values.length →
      (s.getTotalValue).1.prefixSum.getD k 0
        = sumFirst (s.getTotalValue).1.values (k + 1) := by
    intro k hk
    rw [hvals] at hk ⊢
    exact hps k hk
  have hloop := indexOfLoop_found (s.getTotalValue).1.values (s.getTotalValue).1.prefixSum
    P hps' ((((s.getTotalValue).1.values.length : Int) - 1) + 1 - 0).toNat 0
    (((s.getTotalValue).1.values.length : Int) - 1) 0 0 le_rfl
    (by rw [hvals]; omega) (by rw [hvals]; omega)
    (by rw [hvals]; exact h0)
    (by rw [hvals, htN]; exact hP)
  obtain ⟨hl1, hl2, hl3, hl4⟩ := hloop
  rw [hvals] at hl1 hl2 hl3 hl4
  have hidx : (s.getIndexOf P).2.index
      = (indexOfLoop (s.getTotalValue).1.values (s.getTotalValue).1.prefixSum P 0
          (((s.getTotalValue).1.values.length : Int) - 1) 0 0).1 := by
    rw [getIndexOf_eq]
  have hrem : (s.getIndexOf P).2.remainder
      = P - (indexOfLoop (s.getTotalValue).1.values (s.getTotalValue).1.prefixSum P 0
          (((s.getTotalValue).1.values.length : Int) - 1) 0 0).2 := by
    rw [getIndexOf_eq]
  rw [hvals] at hidx hrem
  refine ⟨?_, ?_, ?_, ?_⟩
  · rw [hidx]
    exact hl1
  · rw [hidx]
    exact hl2
  · rw [hidx]
    exact hl3
  · rw [hrem, hidx, hl4]

/-! ### Claim theorems -/

open PrefixSumComputer

/-- C1 (amended): for every initial weight sequence and every valid trace of
insert/replace/remove mutations interleaved with queries, `sumThrough(i)`
(`getAccumulatedValue`) returns the true inclusive sum of `weights[0..i]`
computed from scratch, for every in-range `i` — provided that sum fits in a
uint32.  (The claim without the overflow proviso is refuted by
`C1_counterexample`: the cache wraps modulo `2^32`.) -/
theorem C1_sum_consistency (init : List Nat) (hinit : ∀ v ∈ init, v < U32)
    (ops : List Op) (hops : validTrace (create init) ops = true)
    (i : Nat) (hiU : i < U32)
    (hi : i < (applyTrace (create init) ops).values.length)
    (hsum : sumFirst (applyTrace (create init) ops).values (i + 1) < U32) :
    ((applyTrace (create init) ops).getAccumulatedValue (i : Int)).2
      = some (sumFirst (applyTrace (create init) ops).values (i + 1)) := by
  set s := applyTrace (create init) ops with hs
  have hWF : WF s := applyTrace_WF ops _ (create_WF init hinit) hops
  obtain ⟨_, _, h3⟩ := getAccumulatedValue_spec s hWF (i : Int)
  rw [h3, if_neg (by omega), if_neg (by omega), toUint32_coe hiU]
  have hmin : min i (s.values.length - 1) = i := by omega
  rw [hmin, Nat.mod_eq_of_lt hsum]

/-- C1 witness: a concrete mixed trace (insert, remove, replace, two queries)
after which `sumThrough(1)` is the sum of the first two current weights. -/
theorem C1_witness :
    ((applyTrace (create [1, 2]) [Op.insert 1 [3], Op.remove 0 1, Op.replace 0 5,
        Op.sumThrough 0, Op.total]).getAccumulatedValue (1 : Int)).2
      = some (sumFirst (applyTrace (create [1, 2]) [Op.insert 1 [3], Op.remove 0 1,
          Op.replace 0 5, Op.sumThrough 0, Op.total]).values (1 + 1)) :=
  C1_sum_consistency [1, 2] (by decide)
    [Op.insert 1 [3], Op.remove 0 1, Op.replace 0 5, Op.sumThrough 0, Op.total]
    (by decide) 1 (by decide) (by decide) (by decide)

/-- C1 counterexample: with initial weights `[2^31, 2^31]` and no mutations,
`sumThrough(1)` answers `0`, not the true from-scratch sum `2^32`. -/
theorem C1_counterexample :
    ((applyTrace (create [2147483648, 2147483648]) []).getAccumulatedValue (1 : Int)).2
      = some 0 ∧
    sumFirst (applyTrace (create [2147483648, 2147483648]) []).values (1 + 1)
      = 4294967296 := by
  constructor
  · decide
  · decide

/-- C3 (amended): the state invariant — cache and weights of equal length,
watermark in `[-1, N-1]` (so `-1` when `N = 0`), every weight a uint32, and
each cache entry at or below the watermark equal to the true inclusive prefix
sum *reduced modulo `2^32`* — is established by the constructor and preserved
by insert, replace, remove, `sumThrough`, `totalSum` and `locate`.  (With the
unreduced cache clause the claim is refuted by `C3_counterexample`.) -/
theorem C3_invariant_preserved (init : List Nat) (hinit : ∀ v ∈ init, v < U32)
    (s : PrefixSumComputer) (hWF : WF s)
    (a iv vv st c q p : Int) (ins : List Nat)
    (hins : ∀ v ∈ ins, v < U32) (ha : toUint32 a ≤ s.values.length) :
    WF (create init) ∧
    WF (s.insertValues a ins).1 ∧
    WF (s.changeValue iv vv).1 ∧
    WF (s.removeValues st c).1 ∧
    WF (s.getAccumulatedValue q).1 ∧
    WF (s.getTotalValue).1 ∧
    WF (s.getIndexOf p).1 :=
  ⟨create_WF init hinit, insertValues_WF s hWF a ins hins ha,
   changeValue_WF s hWF iv vv, removeValues_WF s hWF st c,
   (getAccumulatedValue_spec s hWF q).2.1, (getTotalValue_spec s hWF).2.1,
   (getIndexOf_WF s hWF p).2⟩

/-- C3 witness: the invariant theorem instantiated on concrete states and
arguments. -/
theorem C3_witness :
    WF (create [1]) ∧
    WF ((create [2, 3]).insertValues 1 [7]).1 ∧
    WF ((create [2, 3]).changeValue 0 9).1 ∧
    WF ((create [2, 3]).removeValues 0 1).1 ∧
    WF ((create [2, 3]).getAccumulatedValue 1).1 ∧
    WF ((create [2, 3]).getTotalValue).1 ∧
    WF ((create [2, 3]).getIndexOf 2).1 :=
  C3_invariant_preserved [1] (by decide) (create [2, 3])
    (create_WF [2, 3] (by decide)) 1 0 9 0 1 1 2 [7] (by decide) (by decide)

/-- C3 counterexample: after one query on weights `[2^31, 2^31]` the
watermark is `1`, but `cache[1] = 0` while the true inclusive prefix sum
through index `1` is `2^32`: the cache holds sums modulo `2^32`. -/
theorem C3_counterexample :
    ((create [2147483648, 2147483648]).getAccumulatedValue 1).1.prefixSumValidIndex
      = 1 ∧
    ((create [2147483648, 2147483648]).getAccumulatedValue 1).1.prefixSum.getD 1 0
      = 0 ∧
    sumFirst ((create [2147483648, 2147483648]).getAccumulatedValue 1).1.values
        (1 + 1) = 4294967296 := by
  refine ⟨by decide, by decide, by decide⟩

/-- C9 (amended): weight and index arguments are coerced into the unsigned
32-bit range on input and all stored sums are non-negative integers, but
cached prefix sums and query results equal the exact mathematical sums only
modulo `2^32` — exactly when the sum fits in 32 bits.  (The claim's
"no reduction modulo 2^32" is refuted by `C9_counterexample`; the flooring of
fractional query positions concerns JS floats, outside this integer model.) -/
theorem C9_numeric_domain (s : PrefixSumComputer) (hWF : WF s) (i : Nat)
    (hiU : i < U32) (hi : i < s.values.length) (v : Int) :
    toUint32 v < U32 ∧
    (s.getAccumulatedValue (i : Int)).2
      = some (sumFirst s.values (i + 1) % U32) ∧
    (sumFirst s.values (i + 1) < U32 →
      (s.getAccumulatedValue (i : Int)).2 = some (sumFirst s.values (i + 1))) := by
  obtain ⟨_, _, h3⟩ := getAccumulatedValue_spec s hWF (i : Int)
  have hmain : (s.getAccumulatedValue (i : Int)).2
      = some (sumFirst s.values (i + 1) % U32) := by
    rw [h3, if_neg (by omega), if_neg (by omega), toUint32_coe hiU]
    have hmin : min i (s.values.length - 1) = i := by omega
    rw [hmin]
  refine ⟨toUint32_lt v, hmain, fun hlt => ?_⟩
  rw [hmain, Nat.mod_eq_of_lt hlt]

/-- C9 witness. -/
theorem C9_witness :
    toUint32 (-7) < U32 ∧
    ((create [10, 20]).getAccumulatedValue (1 : Int)).2
      = some (sumFirst [10, 20] (1 + 1) % U32) ∧
    (sumFirst [10, 20] (1 + 1) < U32 →
      ((create [10, 20]).getAccumulatedValue (1 : Int)).2
        = some (sumFirst [10, 20] (1 + 1))) :=
  C9_numeric_domain (create [10, 20]) (create_WF [10, 20] (by decide)) 1
    (by decide) (by decide) (-7)

/-- C9 counterexample: weights `[2^32 - 1, 1]` are each coerced-in-range
uint32 values, yet `sumThrough(1)` answers `0`, the exact sum `2^32` reduced
modulo `2^32`. -/
theorem C9_counterexample :
    ((create [4294967295, 1]).getAccumulatedValue 1).2 = some 0 ∧
    sumFirst [4294967295, 1] (1 + 1) = 4294967296 := by
  refine ⟨by decide, by decide⟩

/-- C6: `removeValues(startIndex, cnt)` first clamps the count to
`N - startIndex`; when the clamped count is `0` (count `0` requested, or
`startIndex ≥ N`) it returns `false` and leaves weights, cache and watermark
untouched; otherwise it deletes exactly `[startIndex, startIndex + count)`
from the weight sequence and returns `true`. -/
theorem C6_remove_semantics (s : PrefixSumComputer) (st c : Nat)
    (hst : st < U32) (hc : c < U32) :
    (min c (s.values.length - st) = 0 →
      s.removeValues (st : Int) (c : Int) = (s, false)) ∧
    (0 < min c (s.values.length - st) →
      (s.removeValues (st : Int) (c : Int)).2 = true ∧
      (s.removeValues (st : Int) (c : Int)).1.values
        = s.values.take st ++ s.values.drop (st + min c (s.values.length - st))) := by
  have hclamp : clampedCnt s (st : Int) (c : Int) = min c (s.values.length - st) := by
    unfold clampedCnt
    rw [toUint32_coe hst, toUint32_coe hc]
    split <;> omega
  constructor
  · intro h0
    by_cases hoob : s.values.length ≤ st
    · exact removeValues_oob s _ _ (by rw [toUint32_coe hst]; exact hoob)
    · exact removeValues_zero s _ _ (by rw [toUint32_coe hst]; exact hoob) (by omega)
  · intro hpos
    have hoob : ¬ s.values.length ≤ toUint32 (st : Int) := by
      rw [toUint32_coe hst]
      omega
    have hc0 : ¬ clampedCnt s (st : Int) (c : Int) = 0 := by omega
    rw [removeValues_pos s _ _ hoob hc0]
    refine ⟨rfl, ?_⟩
    show s.values.take (toUint32 (st : Int))
        ++ s.values.drop (toUint32 (st : Int) + clampedCnt s (st : Int) (c : Int)) = _
    rw [toUint32_coe hst, hclamp]

/-- C6 witness: the spec's Scenario C, `remove(1, 2)` on `[5, 2, 3, 5]`. -/
theorem C6_witness :
    (min 2 ((create [5, 2, 3, 5]).values.length - 1) = 0 →
      (create [5, 2, 3, 5]).removeValues ((1 : Nat) : Int) ((2 : Nat) : Int)
        = (create [5, 2, 3, 5], false)) ∧
    (0 < min 2 ((create [5, 2, 3, 5]).values.length - 1) →
      ((create [5, 2, 3, 5]).removeValues ((1 : Nat) : Int) ((2 : Nat) : Int)).2 = true ∧
      ((create [5, 2, 3, 5]).removeValues ((1 : Nat) : Int) ((2 : Nat) : Int)).1.values
        = (create [5, 2, 3, 5]).values.take 1 ++ (create [5, 2, 3, 5]).values.drop
            (1 + min 2 ((create [5, 2, 3, 5]).values.length - 1))) :=
  C6_remove_semantics (create [5, 2, 3, 5]) 1 2 (by decide) (by decide)

/-- C7: a non-empty insert sets the watermark to `min(w, at-1)`, an in-range
replace with a different value to `min(w, index-1)`, a mutating remove to
`min(w, startIndex-1)`; and no mutator ever increases the watermark. -/
theorem C7_watermark_lowering (s : PrefixSumComputer)
    (a idx st : Nat) (ha : a < U32) (hidx : idx < U32) (hst : st < U32)
    (v : Nat) (hv : v < U32) (ins : List Nat) (hins : ins.length ≠ 0) (c : Int)
    (hidxN : idx < s.values.length) (hne : s.values.getD idx 0 ≠ v) :
    (s.insertValues (a : Int) ins).1.prefixSumValidIndex
        = min s.prefixSumValidIndex ((a : Int) - 1) ∧
    (s.changeValue (idx : Int) (v : Int)).1.prefixSumValidIndex
        = min s.prefixSumValidIndex ((idx : Int) - 1) ∧
    ((s.removeValues (st : Int) c).2 = true →
      (s.removeValues (st : Int) c).1.prefixSumValidIndex
        = min s.prefixSumValidIndex ((st : Int) - 1)) ∧
    (∀ a2 : Int, ∀ ins2 : List Nat,
      (s.insertValues a2 ins2).1.prefixSumValidIndex ≤ s.prefixSumValidIndex) ∧
    (∀ i2 v2 : Int,
      (s.changeValue i2 v2).1.prefixSumValidIndex ≤ s.prefixSumValidIndex) ∧
    (∀ st2 c2 : Int,
      (s.removeValues st2 c2).1.prefixSumValidIndex ≤ s.prefixSumValidIndex) := by
  refine ⟨?_, ?_, ?_, ?_, ?_, ?_⟩
  · rw [insertValues_pos s _ _ hins]
    show min s.prefixSumValidIndex ((toUint32 ((a : Nat) : Int) : Int) - 1) = _
    rw [toUint32_coe ha]
  · have hcond : ¬ s.values.get? (toUint32 ((idx : Nat) : Int))
        = some (toUint32 ((v : Nat) : Int)) := by
      rw [toUint32_coe hidx, toUint32_coe hv, get?_eq_some_getD hidxN]
      intro hcontra
      exact hne (Option.some.inj hcontra)
    rw [changeValue_store s _ _ hcond]
    show min s.prefixSumValidIndex ((toUint32 ((idx : Nat) : Int) : Int) - 1) = _
    rw [toUint32_coe hidx]
  · intro htrue
    by_cases hoob : s.values.length ≤ toUint32 ((st : Nat) : Int)
    · rw [removeValues_oob s _ _ hoob] at htrue
      exact Bool.noConfusion htrue
    by_cases h0 : clampedCnt s ((st : Nat) : Int) c = 0
    · rw [removeValues_zero s _ _ hoob h0] at htrue
      exact Bool.noConfusion htrue
    · rw [removeValues_pos s _ _ hoob h0]
      show min s.prefixSumValidIndex ((toUint32 ((st : Nat) : Int) : Int) - 1) = _
      rw [toUint32_coe hst]
  · intro a2 ins2
    by_cases hnil : ins2.length = 0
    · rw [insertValues_nil s a2 ins2 hnil]
    · rw [insertValues_pos s a2 ins2 hnil]
      show min s.prefixSumValidIndex _ ≤ _
      exact min_le_left _ _
  · intro i2 v2
    by_cases hcond : s.values.get? (toUint32 i2) = some (toUint32 v2)
    · rw [changeValue_noop s i2 v2 hcond]
    · rw [changeValue_store s i2 v2 hcond]
      show min s.prefixSumValidIndex _ ≤ _
      exact min_le_left _ _
  · intro st2 c2
    by_cases hoob : s.values.length ≤ toUint32 st2
    · rw [removeValues_oob s st2 c2 hoob]
    by_cases h0 : clampedCnt s st2 c2 = 0
    · rw [removeValues_zero s st2 c2 hoob h0]
    · rw [removeValues_pos s st2 c2 hoob h0]
      show min s.prefixSumValidIndex _ ≤ _
      exact min_le_left _ _

/-- C7 witness: the three mutators on `[1, 2, 3]` with concrete arguments. -/
theorem C7_witness :
    ((create [1, 2, 3]).insertValues ((1 : Nat) : Int) [4]).1.prefixSumValidIndex
        = min (create [1, 2, 3]).prefixSumValidIndex (((1 : Nat) : Int) - 1) ∧
    ((create [1, 2, 3]).changeValue ((1 : Nat) : Int) ((9 : Nat) : Int)).1.prefixSumValidIndex
        = min (create [1, 2, 3]).prefixSumValidIndex (((1 : Nat) : Int) - 1) ∧
    (((create [1, 2, 3]).removeValues ((0 : Nat) : Int) 2).2 = true →
      ((create [1, 2, 3]).removeValues ((0 : Nat) : Int) 2).1.prefixSumValidIndex
        = min (create [1, 2, 3]).prefixSumValidIndex (((0 : Nat) : Int) - 1)) ∧
    (∀ a2 : Int, ∀ ins2 : List Nat,
      ((create [1, 2, 3]).insertValues a2 ins2).1.prefixSumValidIndex
        ≤ (create [1, 2, 3]).prefixSumValidIndex) ∧
    (∀ i2 v2 : Int,
      ((create [1, 2, 3]).changeValue i2 v2).1.prefixSumValidIndex
        ≤ (create [1, 2, 3]).prefixSumValidIndex) ∧
    (∀ st2 c2 : Int,
      ((create [1, 2, 3]).removeValues st2 c2).1.prefixSumValidIndex
        ≤ (create [1, 2, 3]).prefixSumValidIndex) :=
  C7_watermark_lowering (create [1, 2, 3]) 1 1 0 (by decide) (by decide) (by decide)
    9 (by decide) [4] (by decide) 2 (by decide) (by decide)

/-- C8: replacing a weight with its current value is a no-op that returns
`false` and leaves the whole state (weights, cache, watermark) unchanged;
replacing it with a genuinely different value returns `true`. -/
theorem C8_replace_idempotent (s : PrefixSumComputer) (i : Nat)
    (hiU : i < U32) (hi : i < s.values.length) (hvb : s.values.getD i 0 < U32)
    (v : Nat) (hvU : v < U32) (hne : s.values.getD i 0 ≠ v) :
    s.changeValue ((i : Nat) : Int) ((s.values.getD i 0 : Nat) : Int) = (s, false) ∧
    (s.changeValue ((i : Nat) : Int) ((v : Nat) : Int)).2 = true := by
  constructor
  · refine changeValue_noop s _ _ ?_
    rw [toUint32_coe hiU, toUint32_coe hvb]
    exact get?_eq_some_getD hi
  · have hcond : ¬ s.values.get? (toUint32 ((i : Nat) : Int))
        = some (toUint32 ((v : Nat) : Int)) := by
      rw [toUint32_coe hiU, toUint32_coe hvU, get?_eq_some_getD hi]
      intro hcontra
      exact hne (Option.some.inj hcontra)
    rw [changeValue_store s _ _ hcond]

/-- C8 witness: the spec's Scenario D, `replace(0, 10)` then `replace(0, 20)`
on `[10]`. -/
theorem C8_witness :
    (create [10]).changeValue ((0 : Nat) : Int)
        (((create [10]).values.getD 0 0 : Nat) : Int) = (create [10], false) ∧
    ((create [10]).changeValue ((0 : Nat) : Int) ((20 : Nat) : Int)).2 = true :=
  C8_replace_idempotent (create [10]) 0 (by decide) (by decide) (by decide) 20
    (by decide) (by decide)

/-- C10: replacing at an index at or beyond `N` (as a uint32) returns `true`
for every value, yet leaves weights (the out-of-bounds store is ignored),
cache and watermark (its guard cannot fire, as the watermark is at most
`N - 1 ≤ index - 1`) all unchanged — the `true` result does not mean a change
happened. -/
theorem C10_oob_replace (s : PrefixSumComputer) (hWF : WF s) (idx : Nat)
    (hiU : idx < U32) (hge : s.values.length ≤ idx) (v : Int) :
    (s.changeValue ((idx : Nat) : Int) v).1 = s ∧
    (s.changeValue ((idx : Nat) : Int) v).2 = true := by
  obtain ⟨hlen, hw1, hw2, hvb, hcache⟩ := hWF
  have hnone : s.values.get? (toUint32 ((idx : Nat) : Int)) = none := by
    rw [toUint32_coe hiU]
    exact List.get?_len_le hge
  have hcond : ¬ s.values.get? (toUint32 ((idx : Nat) : Int)) = some (toUint32 v) := by
    rw [hnone]
    intro hcontra
    exact Option.noConfusion hcontra
  rw [changeValue_store s _ _ hcond]
  constructor
  · show ({ values := s.values.set (toUint32 ((idx : Nat) : Int)) (toUint32 v)
            prefixSum := s.prefixSum
            prefixSumValidIndex := min s.prefixSumValidIndex
              ((toUint32 ((idx : Nat) : Int) : Int) - 1) } : PrefixSumComputer) = s
    have hset : s.values.set (toUint32 ((idx : Nat) : Int)) (toUint32 v) = s.values := by
      rw [toUint32_coe hiU]
      exact List.set_eq_of_length_le hge
    have hmin : min s.prefixSumValidIndex ((toUint32 ((idx : Nat) : Int) : Int) - 1)
        = s.prefixSumValidIndex := by
      rw [toUint32_coe hiU]
      omega
    rw [hset, hmin]
  · rfl

/-- C10 witness: `replace(3, 7)` on the single-weight state `[5]`. -/
theorem C10_witness :
    ((create [5]).changeValue ((3 : Nat) : Int) 7).1 = create [5] ∧
    ((create [5]).changeValue ((3 : Nat) : Int) 7).2 = true :=
  C10_oob_replace (create [5]) (create_WF [5] (by decide)) 3 (by decide)
    (by decide) 7

/-- C2 (amended): on a well-formed non-empty state whose total sum fits a
uint32, `getIndexOf(P)` with `0 ≤ P <` total returns the unique index `i`
with `sumFirst i ≤ P < sumFirst (i+1)` (i.e. `midStart ≤ P < midStop`)
together with `remainder = P - sumFirst i`.  (Without the no-overflow
proviso the claim is refuted by `C2_counterexample`.) -/
theorem C2_locate_correct (s : PrefixSumComputer) (hWF : WF s)
    (hne : s.values.length ≠ 0)
    (htot : sumFirst s.values s.values.length < U32)
    (P : Int) (h0 : 0 ≤ P) (hP : P < (sumFirst s.values s.values.length : Int)) :
    (s.getIndexOf P).2.index < s.values.length ∧
    (sumFirst s.values (s.getIndexOf P).2.index : Int) ≤ P ∧
    P < (sumFirst s.values ((s.getIndexOf P).2.index + 1) : Int) ∧
    (s.getIndexOf P).2.remainder
      = P - (sumFirst s.values (s.getIndexOf P).2.index : Int) ∧
    (∀ j : Nat, (sumFirst s.values j : Int) ≤ P →
      P < (sumFirst s.values (j + 1) : Int) → (s.getIndexOf P).2.index = j) := by
  obtain ⟨h1, h2, h3, h4⟩ := getIndexOf_spec_in_range s hWF hne htot P h0 hP
  exact ⟨h1, h2, h3, h4, fun j hj1 hj2 => window_unique s.values P h2 h3 hj1 hj2⟩

/-- C2 witness: the spec's Scenario A, `locate(2)` on `[1, 1, 1]`. -/
theorem C2_witness :
    ((create [1, 1, 1]).getIndexOf 2).2.index < (create [1, 1, 1]).values.length ∧
    (sumFirst (create [1, 1, 1]).values ((create [1, 1, 1]).getIndexOf 2).2.index : Int)
      ≤ 2 ∧
    (2 : Int) < (sumFirst (create [1, 1, 1]).values
      (((create [1, 1, 1]).getIndexOf 2).2.index + 1) : Int) ∧
    ((create [1, 1, 1]).getIndexOf 2).2.remainder
      = 2 - (sumFirst (create [1, 1, 1]).values
          ((create [1, 1, 1]).getIndexOf 2).2.index : Int) ∧
    (∀ j : Nat, (sumFirst (create [1, 1, 1]).values j : Int) ≤ 2 →
      (2 : Int) < (sumFirst (create [1, 1, 1]).values (j + 1) : Int) →
      ((create [1, 1, 1]).getIndexOf 2).2.index = j) :=
  C2_locate_correct (create [1, 1, 1]) (create_WF [1, 1, 1] (by decide)) (by decide)
    (by decide) 2 (by decide) (by decide)

/-- C2 counterexample: weights `[2^31, 2^31, 1]`, position `0`.  The position
satisfies `0 ≤ 0 < totalSum()` (the code's total is the wrapped value `1`),
and the unique index whose window contains `0` is `0`, yet `getIndexOf(0)`
returns index `2`: the wrapped cache breaks the binary search. -/
theorem C2_counterexample :
    ((create [2147483648, 2147483648, 1]).getTotalValue).2 = some 1 ∧
    sumFirst [2147483648, 2147483648, 1] 0 = 0 ∧
    ((0 : Int) < (sumFirst [2147483648, 2147483648, 1] (0 + 1) : Int)) ∧
    ((create [2147483648, 2147483648, 1]).getIndexOf 0).2.index = 2 := by
  refine ⟨by decide, by decide, by decide, by decide⟩

/-- C4 (amended): `sumThrough(-1) = 0` always; on a *non-empty* state,
`sumThrough(index)` for `index ≥ N` equals `totalSum()`, and
`getIndexOf(pos)` for `pos` at or beyond the (unwrapped) total returns the
last index; but on the *empty* state `sumThrough(index ≥ 0)` is the
out-of-bounds read `prefixSum[-1]` — JS `undefined`, not `totalSum() = 0`
(that part of the claim is refuted by `C4_counterexample`). -/
theorem C4_boundary (s : PrefixSumComputer) (hWF : WF s)
    (neg index pos : Int) (hneg : neg < 0) (hN : s.values.length < U32)
    (hge : (s.values.length : Int) ≤ index)
    (htot : sumFirst s.values s.values.length < U32)
    (hpos : (sumFirst s.values s.values.length : Int) ≤ pos) :
    (s.getAccumulatedValue neg).2 = some 0 ∧
    (s.values.length ≠ 0 → (s.getAccumulatedValue index).2 = (s.getTotalValue).2) ∧
    (s.values.length = 0 →
      (s.getAccumulatedValue index).2 = none ∧ (s.getTotalValue).2 = some 0) ∧
    (s.values.length ≠ 0 → (s.getIndexOf pos).2.index = s.values.length - 1) := by
  obtain ⟨_, _, hacc⟩ := getAccumulatedValue_spec s hWF index
  obtain ⟨hvals, _, _, htotv⟩ := getTotalValue_spec s hWF
  have hcoe : s.values.length ≤ toUint32 index := by
    unfold toUint32 U32 at *
    rw [if_neg (by omega)]
    omega
  refine ⟨?_, ?_, ?_, ?_⟩
  · unfold getAccumulatedValue
    rw [if_pos hneg]
  · intro hne
    rw [hacc, htotv, if_neg (by omega), if_neg hne, if_neg hne]
    have h1 : min (toUint32 index) (s.values.length - 1) = s.values.length - 1 := by
      omega
    have h2 : s.values.length - 1 + 1 = s.values.length := by omega
    rw [h1, h2]
  · intro hemp
    rw [hacc, htotv, if_neg (by omega), if_pos hemp, if_pos hemp]
    exact ⟨rfl, rfl⟩
  · intro hne
    have hfull := getTotalValue_full s hWF htot
    have hps' : ∀ k : Nat, k < (s.getTotalValue).1.values.length →
        (s.getTotalValue).1.prefixSum.getD k 0
          = sumFirst (s.getTotalValue).1.values (k + 1) := by
      intro k hk
      rw [hvals] at hk ⊢
      exact hfull k hk
    have hNpos : 0 < s.values.length := Nat.pos_of_ne_zero hne
    have hloop := indexOfLoop_ge (s.getTotalValue).1.values (s.getTotalValue).1.prefixSum
      pos hps' (by rw [hvals]; exact hpos) (by rw [hvals]; exact hne)
      ((s.getTotalValue).1.values.length) 0 0 0 le_rfl (by omega)
    have hidx : (s.getIndexOf pos).2.index
        = (indexOfLoop (s.getTotalValue).1.values (s.getTotalValue).1.prefixSum pos 0
            (((s.getTotalValue).1.values.length : Int) - 1) 0 0).1 := by
      rw [getIndexOf_eq]
    rw [hidx, hloop]
    show (s.getTotalValue).1.values.length - 1 = s.values.length - 1
    rw [hvals]

/-- C4 witness: weights `[1, 1, 1]` with `sumThrough(-1)`, `sumThrough(5)`,
and `locate(3)`. -/
theorem C4_witness :
    ((create [1, 1, 1]).getAccumulatedValue (-1)).2 = some 0 ∧
    ((create [1, 1, 1]).values.length ≠ 0 →
      ((create [1, 1, 1]).getAccumulatedValue 5).2 = ((create [1, 1, 1]).getTotalValue).2) ∧
    ((create [1, 1, 1]).values.length = 0 →
      ((create [1, 1, 1]).getAccumulatedValue 5).2 = none ∧
      ((create [1, 1, 1]).getTotalValue).2 = some 0) ∧
    ((create [1, 1, 1]).values.length ≠ 0 →
      ((create [1, 1, 1]).getIndexOf 3).2.index = (create [1, 1, 1]).values.length - 1) :=
  C4_boundary (create [1, 1, 1]) (create_WF [1, 1, 1] (by decide)) (-1) 5 3
    (by decide) (by decide) (by decide) (by decide) (by decide)

/-- C4 counterexample: on the empty sequence, `sumThrough(0)` performs the
out-of-bounds read `prefixSum[-1]` and returns `undefined` (`none`), which
differs from `totalSum() = 0`: the "including when the sequence is empty"
part of the claim fails. -/
theorem C4_counterexample :
    ((create []).getAccumulatedValue 0).2 = none ∧
    ((create []).getTotalValue).2 = some 0 ∧
    ((create []).getAccumulatedValue 0).2 ≠ ((create []).getTotalValue).2 := by
  refine ⟨by decide, by decide, by decide⟩

/-- C5 (amended): the round-trip holds at the *exclusive* boundary: when
`weights[i] > 0` (and the total fits a uint32), `sumThrough(i-1)` is the
cumulative sum strictly before `i`, and `locate(sumThrough(i-1))` returns
`{index := i, remainder := 0}`.  As written — with the inclusive
`sumThrough(i)` — the position is already the start of the *next* window, so
the claim is refuted by `C5_counterexample`. -/
theorem C5_round_trip (s : PrefixSumComputer) (hWF : WF s) (i : Nat)
    (hiU : i < U32) (hi : i < s.values.length)
    (htot : sumFirst s.values s.values.length < U32)
    (hw : 0 < s.values.getD i 0) :
    (s.getAccumulatedValue ((i : Int) - 1)).2 = some (sumFirst s.values i) ∧
    ((s.getAccumulatedValue ((i : Int) - 1)).1.getIndexOf
        ((sumFirst s.values i : Nat) : Int)).2 = ⟨i, 0⟩ := by
  obtain ⟨hvals, hWF', hq⟩ := getAccumulatedValue_spec s hWF ((i : Int) - 1)
  have hsum_i : sumFirst s.values i < U32 :=
    lt_of_le_of_lt (sumFirst_mono s.values (by omega)) htot
  have hfirst : (s.getAccumulatedValue ((i : Int) - 1)).2
      = some (sumFirst s.values i) := by
    rcases Nat.eq_zero_or_pos i with hz | hpos
    · subst hz
      rw [hq, if_pos (by omega)]
      rfl
    · rw [hq, if_neg (by omega), if_neg (by omega)]
      have hco : toUint32 ((i : Int) - 1) = i - 1 := by
        have h1 : ((i : Int) - 1) = (((i - 1 : Nat) : Nat) : Int) := by omega
        rw [h1, toUint32_coe (by omega)]
      have hmin : min (i - 1) (s.values.length - 1) = i - 1 := by omega
      have h2 : i - 1 + 1 = i := by omega
      rw [hco, hmin, h2, Nat.mod_eq_of_lt hsum_i]
  refine ⟨hfirst, ?_⟩
  have hP0 : (0 : Int) ≤ ((sumFirst s.values i : Nat) : Int) := by omega
  have hPlt : ((sumFirst s.values i : Nat) : Int)
      < (sumFirst s.values s.values.length : Int) := by
    have hstep : sumFirst s.values i < sumFirst s.values (i + 1) := by
      rw [sumFirst_succ]
      omega
    have hmono := sumFirst_mono s.values (show i + 1 ≤ s.values.length by omega)
    have hnat : sumFirst s.values i < sumFirst s.values s.values.length := by omega
    exact_mod_cast hnat
  obtain ⟨hr1, hr2, hr3, hr4⟩ := getIndexOf_spec_in_range
    (s.getAccumulatedValue ((i : Int) - 1)).1 hWF' (by rw [hvals]; omega)
    (by rw [hvals]; exact htot) ((sumFirst s.values i : Nat) : Int) hP0
    (by rw [hvals]; exact hPlt)
  rw [hvals] at hr1 hr2 hr3 hr4
  have hwin1 : (sumFirst s.values i : Int) ≤ ((sumFirst s.values i : Nat) : Int) :=
    le_rfl
  have hwin2 : ((sumFirst s.values i : Nat) : Int)
      < (sumFirst s.values (i + 1) : Int) := by
    have : sumFirst s.values i < sumFirst s.values (i + 1) := by
      rw [sumFirst_succ]
      omega
    exact_mod_cast this
  have hridx : ((s.getAccumulatedValue ((i : Int) - 1)).1.getIndexOf
      ((sumFirst s.values i : Nat) : Int)).2.index = i :=
    window_unique s.values _ hr2 hr3 hwin1 hwin2
  have hrem0 : ((s.getAccumulatedValue ((i : Int) - 1)).1.getIndexOf
      ((sumFirst s.values i : Nat) : Int)).2.remainder = 0 := by
    rw [hr4, hridx]
    omega
  have heta : ((s.getAccumulatedValue ((i : Int) - 1)).1.getIndexOf
      ((sumFirst s.values i : Nat) : Int)).2
        = ⟨((s.getAccumulatedValue ((i : Int) - 1)).1.getIndexOf
            ((sumFirst s.values i : Nat) : Int)).2.index,
           ((s.getAccumulatedValue ((i : Int) - 1)).1.getIndexOf
            ((sumFirst s.values i : Nat) : Int)).2.remainder⟩ := rfl
  rw [heta, hridx, hrem0]

/-- C5 witness: weights `[1, 2, 3]`, `i = 1`:
`locate(sumThrough(0)) = {index 1, remainder 0}`. -/
theorem C5_witness :
    ((create [1, 2, 3]).getAccumulatedValue (((1 : Nat) : Int) - 1)).2
      = some (sumFirst (create [1, 2, 3]).values 1) ∧
    (((create [1, 2, 3]).getAccumulatedValue (((1 : Nat) : Int) - 1)).1.getIndexOf
        ((sumFirst (create [1, 2, 3]).values 1 : Nat) : Int)).2 = ⟨1, 0⟩ :=
  C5_round_trip (create [1, 2, 3]) (create_WF [1, 2, 3] (by decide)) 1 (by decide)
    (by decide) (by decide) (by decide)

/-- C5 counterexample: weights `[1, 1]`, `i = 0` with `weights[0] = 1 > 0`:
`sumThrough(0) = 1` and `locate(1) = {index 1, remainder 0}`, not
`{index 0, remainder 0}` as the claim states. -/
theorem C5_counterexample :
    ((create [1, 1]).getAccumulatedValue 0).2 = some 1 ∧
    (((create [1, 1]).getAccumulatedValue 0).1.getIndexOf 1).2
      = ⟨1, 0⟩ ∧
    (((create [1, 1]).getAccumulatedValue 0).1.getIndexOf 1).2
      ≠ ⟨0, 0⟩ := by
  refine ⟨by decide, by decide, by decide⟩

end PrefixSumSpec
